import Mathlib

/-!
geomina: Knuth-Morris-Pratt matcher and modular-exponentiation cipher.

A shallow embedding of `kmp.go` (`Kmp`, `table`) and `rsa.go` (`Encrypt`, `Decrypt`).

Conventions of the embedding.
* A Go `string` is its sequence of bytes, `List Nat`; `len` is `List.length`, and
  `s[a:b]` is `(s.drop a).take (b - a)`.
* Go `int` values are `Int`; every `+`/`-` of the matcher goes through `wrapInt`
  (64-bit two's-complement wrap-around).
* Indexing a string or slice is `index`, whose `none` is the run-time panic
  "index out of range".
* A `for` loop whose trip count is not bounded by its header runs on fuel; the fuel
  counts executed loop bodies.
* A `rune` is an `Int`; the conversion `rune(x)` of an `int64` is `wrapRune`.
* The text produced by `string(runes)` is represented by its sequence of code points.
-/

namespace Geomina

/-! ## Machine integers and indexing -/

/-- Two's-complement wrap-around of a Go `int` (64 bits). -/
def wrapInt (x : Int) : Int := (x + 2 ^ 63) % 2 ^ 64 - 2 ^ 63

/-- Conversion `rune(x)` of an `int64`: the low 32 bits, read as a signed number. -/
def wrapRune (x : Int) : Int := (x + 2 ^ 31) % 2 ^ 32 - 2 ^ 31

/-- Indexing `xs[i]`; `none` is the panic "index out of range". -/
def index {α : Type} (xs : List α) (i : Int) : Option α :=
  if 0 ≤ i then xs[i.toNat]? else none

/-! ## kmp.go: `table` -/

/-- Inner loop of `table`: `for w[0:k] != w[j-k:j] && k > 0 { k-- }`, started at `k`. -/
def tableShrink (w : List Nat) (j : Nat) : Nat → Nat
  | 0 => 0
  | k + 1 =>
    if w.take (k + 1) ≠ (w.drop (j - (k + 1))).take (k + 1) then tableShrink w j k
    else k + 1

/-- Body of the outer loop of `table`, on the variables `(t, k)`:
`k = j`, the inner loop, then `t = append(t, j)`. -/
def tableBody (w : List Nat) (s : List Int × Nat) (j : Nat) : List Int × Nat :=
  let k := tableShrink w j j
  (s.1 ++ [(j : Int)], k)

/-- Function `table(w)`: `t` starts as `[-1]`, `j` runs over `1, …, len(w)-1`. -/
def table (w : List Nat) : List Int :=
  ((List.range' 1 (w.length - 1)).foldl (tableBody w) ([-1], 0)).1

/-! ## kmp.go: `Kmp` -/

/-- Local variables of `Kmp`. -/
structure KmpState where
  i : Int
  j : Int
  /-- The variable `matches` of the source (that word is reserved here). -/
  found : List Int
  deriving DecidableEq, Repr

/-- How a run of `Kmp` ends: it returns its match list, it panics on an index out of range,
or the fuel is used up while the loop is still running. -/
inductive KmpResult where
  | returned (found : List Int)
  | panicked
  | outOfFuel
  deriving DecidableEq, Repr

/-- Loop condition `i+j < len(text)`. -/
def kmpCond (text : List Nat) (s : KmpState) : Bool :=
  decide (wrapInt (s.i + s.j) < (text.length : Int))

/-- One execution of the loop body of `Kmp`; `none` is a panic. -/
def kmpBody (word text : List Nat) (patternTable : List Int) (s : KmpState) :
    Option KmpState :=
  match index word s.j, index text s.i with
  | some a, some b =>
    if a = b then
      let j1 := wrapInt (s.j + 1)
      if s.i = (word.length : Int) then
        some { i := 0, j := wrapInt (s.i + j1), found := s.found ++ [s.i] }
      else
        some { i := s.i, j := j1, found := s.found }
    else
      match index patternTable s.i with
      | none => none
      | some ti =>
        let i1 := wrapInt (s.i + s.j - ti)
        match index patternTable s.j with
        | none => none
        | some tj =>
          if tj > -1 then some { i := i1, j := tj, found := s.found }
          else some { i := 0, j := s.j, found := s.found }
  | _, _ => none

/-- The scan loop of `Kmp` from state `s`, with `fuel` loop bodies allowed: the condition
is tested first, so a loop that stops at once returns with no fuel at all. -/
def kmpLoop (word text : List Nat) (patternTable : List Int) : Nat → KmpState → KmpResult
  | 0, s => if kmpCond text s then .outOfFuel else .returned s.found
  | fuel + 1, s =>
    if kmpCond text s then
      match kmpBody word text patternTable s with
      | none => .panicked
      | some s1 => kmpLoop word text patternTable fuel s1
    else .returned s.found

/-- Function `Kmp(word, text, patternTable)`, with `fuel` loop bodies allowed. -/
def Kmp (fuel : Nat) (word text : List Nat) (patternTable : List Int) : KmpResult :=
  if word.length < text.length then .returned []
  else kmpLoop word text patternTable fuel { i := 0, j := 0, found := [] }

/-! ## Reference notions for the matcher and the table -/

/-- Pattern `p` occurs in `t` at offset `off`. -/
def occursAt (p t : List Nat) (off : Nat) : Bool :=
  decide ((t.drop off).take p.length = p)

/-- Pattern `p` occurs somewhere in `t` as a contiguous substring. -/
def occursIn (p t : List Nat) : Bool :=
  (List.range (t.length + 1)).any (occursAt p t)

/-- Greedy left-to-right scan without overlaps, from offset `off`: at an occurrence report
`off` and resume at `off + len(p)`, otherwise move on by one. -/
def greedyScan (p t : List Nat) : Nat → Nat → List Int
  | 0, _ => []
  | n + 1, off =>
    if occursAt p t off then (off : Int) :: greedyScan p t n (off + p.length)
    else greedyScan p t n (off + 1)

/-- Offsets of the occurrences of a non-empty `p` in `t` found by the greedy
non-overlapping scan. -/
def greedyMatches (p t : List Nat) : List Int :=
  greedyScan p t (t.length + 1) 0

/-- The largest `k < j` with `p[0:k] = p[j-k:j]` (for `j ≥ 1`; `k = 0` always qualifies). -/
def longestBorder (p : List Nat) (j : Nat) : Nat :=
  Nat.findGreatest (fun k => p.take k = (p.drop (j - k)).take k) (j - 1)

/-! ## rsa.go -/

/-- The two error values of `rsa.go`. -/
inductive GoError where
  | ErrorFailedToEncrypt
  | ErrorFailedToDecrypt
  deriving DecidableEq, Repr

/-- Conversion of one rune by `string(...)`: a Unicode scalar value stays, anything else
(negative, a surrogate, above `0x10FFFF`) becomes `U+FFFD`. -/
def runeToCodePoint (r : Int) : Int :=
  if (0 ≤ r ∧ r < 0xD800) ∨ (0xE000 ≤ r ∧ r ≤ 0x10FFFF) then r else 0xFFFD

/-- Conversion `string(runes)`, as the sequence of code points of the resulting text. -/
def runesToString (runes : List Int) : List Int :=
  runes.map runeToCodePoint

/-- Loop of `Encrypt` over the remaining `message`, with `encrypted` built so far.
The external `modular.Exponentiation` is the parameter `modExp`, called as
`modExp letter modulus publicExponent`; `none` is a non-nil `err`. -/
def encryptLoop (modExp : Int → Int → Int → Option Int) (publicExponent modulus : Int) :
    List Int → List Int → List Int × Option GoError
  | [], encrypted => (encrypted, none)
  | letter :: rest, encrypted =>
    match modExp letter modulus publicExponent with
    | none => ([], some .ErrorFailedToEncrypt)
    | some encryptedLetter =>
      encryptLoop modExp publicExponent modulus rest (encrypted ++ [wrapRune encryptedLetter])

/-- Function `Encrypt(message, publicExponent, modulus)`: the pair of its two results
(a nil slice is `[]`, a nil error is `none`). -/
def Encrypt (modExp : Int → Int → Int → Option Int) (message : List Int)
    (publicExponent modulus : Int) : List Int × Option GoError :=
  encryptLoop modExp publicExponent modulus message []

/-- Loop of `Decrypt` over the remaining `encrypted`, with `decrypted` built so far;
on exit the runes are converted by `string(decrypted)`. -/
def decryptLoop (modExp : Int → Int → Int → Option Int) (privateExponent modulus : Int) :
    List Int → List Int → List Int × Option GoError
  | [], decrypted => (runesToString decrypted, none)
  | letter :: rest, decrypted =>
    match modExp letter modulus privateExponent with
    | none => ([], some .ErrorFailedToDecrypt)
    | some decryptedLetter =>
      decryptLoop modExp privateExponent modulus rest (decrypted ++ [wrapRune decryptedLetter])

/-- Function `Decrypt(encrypted, privateExponent, modulus)`: the pair of its two results
(the text as its code points, `""` is `[]`, a nil error is `none`). -/
def Decrypt (modExp : Int → Int → Int → Option Int) (encrypted : List Int)
    (privateExponent modulus : Int) : List Int × Option GoError :=
  decryptLoop modExp privateExponent modulus encrypted []

/-- Modelled from the spec: the external primitive `modular.Exponentiation`, whose package
is not part of the sources. Its contract in the spec: given base, modulus, exponent, return
`base^exponent mod modulus`, failing on an invalid modulus (such as zero) or an exponent
outside its domain. -/
def Exponentiation (base modulus exponent : Int) : Option Int :=
  if modulus ≤ 0 ∨ exponent < 0 then none
  else some (base ^ exponent.toNat % modulus)

/-- The state at the head of the scan loop once `n` loop bodies have run from the initial
`i = 0, j = 0, matches = nil`; `none` when the loop has ended or panicked before that. -/
def kmpStateAfter (word text : List Nat) (patternTable : List Int) : Nat → Option KmpState
  | 0 => some { i := 0, j := 0, found := [] }
  | n + 1 =>
    match kmpStateAfter word text patternTable n with
    | none => none
    | some s => if kmpCond text s then kmpBody word text patternTable s else none

/-- Both cursors lie between 0 and `len(text)`. -/
def CursorsInRange (text : List Nat) (s : KmpState) : Prop :=
  0 ≤ s.i ∧ 0 ≤ s.j ∧ s.i ≤ (text.length : Int) ∧ s.j ≤ (text.length : Int)

/-! ## Auxiliary facts -/

theorem tableBody_foldl (w : List Nat) (js : List Nat) (s : List Int × Nat) :
    (js.foldl (tableBody w) s).1 = s.1 ++ js.map (fun j => (j : Int)) := by
  induction js generalizing s with
  | nil => simp
  | cons j js ih => simp [List.foldl_cons, ih, tableBody]

/-- Closed form of `table`: the sentinel followed by `1, 2, …, len(w)-1`. -/
theorem table_eq (w : List Nat) :
    table w = -1 :: (List.range' 1 (w.length - 1)).map (fun j => (j : Int)) := by
  simp [table, tableBody_foldl]

/-- A state on which the loop condition holds and which the body maps to itself is never
left: the loop uses up any amount of fuel. -/
theorem kmpLoop_stuck (word text : List Nat) (patternTable : List Int) (s : KmpState)
    (hc : kmpCond text s = true) (hb : kmpBody word text patternTable s = some s)
    (fuel : Nat) : kmpLoop word text patternTable fuel s = .outOfFuel := by
  induction fuel with
  | zero => simp [kmpLoop, hc]
  | succ n ih => simp [kmpLoop, hc, hb, ih]

/-- A value in the range of a rune is unchanged by `rune(x)`. -/
theorem wrapRune_of_fits (x : Int) (h1 : -2 ^ 31 ≤ x) (h2 : x < 2 ^ 31) : wrapRune x = x := by
  unfold wrapRune
  omega

/-- Fermat: for a prime `p` and an exponent `k ≥ 1` with `p - 1 ∣ k - 1`, `a ^ k ≡ a`. -/
theorem pow_modEq_self_of_prime (p a k : Nat) (hp : p.Prime) (hk : 1 ≤ k)
    (hdvd : p - 1 ∣ k - 1) : a ^ k ≡ a [MOD p] := by
  haveI : Fact p.Prime := ⟨hp⟩
  obtain ⟨t, ht⟩ := hdvd
  have hk2 : k = (p - 1) * t + 1 := by omega
  rw [← ZMod.natCast_eq_natCast_iff]
  push_cast
  by_cases ha : (a : ZMod p) = 0
  · rw [ha, zero_pow (by omega)]
  · rw [hk2, pow_succ, pow_mul, ZMod.pow_card_sub_one_eq_one ha, one_pow, one_mul]

/-- RSA exponent identity: with `n = p * q` for distinct primes and
`e * d ≡ 1` modulo `lcm (p-1) (q-1)`, raising to `e * d` is the identity modulo `n`. -/
theorem pow_mul_modEq_self (p q e d a : Nat) (hp : p.Prime) (hq : q.Prime) (hpq : p ≠ q)
    (hed : e * d ≡ 1 [MOD Nat.lcm (p - 1) (q - 1)]) : a ^ (e * d) ≡ a [MOD p * q] := by
  have hp2 := hp.two_le
  have hq2 := hq.two_le
  have hL : 2 ≤ Nat.lcm (p - 1) (q - 1) := by
    have hpos : 0 < Nat.lcm (p - 1) (q - 1) := Nat.lcm_pos (by omega) (by omega)
    by_contra hlt
    have h1 : Nat.lcm (p - 1) (q - 1) = 1 := by omega
    have hp1 : p - 1 ∣ 1 := by
      have h := Nat.dvd_lcm_left (p - 1) (q - 1)
      rwa [h1] at h
    have hq1 : q - 1 ∣ 1 := by
      have h := Nat.dvd_lcm_right (p - 1) (q - 1)
      rwa [h1] at h
    have := Nat.dvd_one.1 hp1
    have := Nat.dvd_one.1 hq1
    omega
  have hmod : e * d % Nat.lcm (p - 1) (q - 1) = 1 := by
    have := hed
    unfold Nat.ModEq at this
    rw [this, Nat.mod_eq_of_lt hL]
  have hk : 1 ≤ e * d := by
    by_contra hlt
    have h0 : e * d = 0 := by omega
    rw [h0] at hmod
    simp at hmod
  have hdvd : Nat.lcm (p - 1) (q - 1) ∣ e * d - 1 := (Nat.modEq_iff_dvd' hk).1 hed.symm
  have hcop : Nat.Coprime p q := (Nat.coprime_primes hp hq).2 hpq
  rw [← Nat.modEq_and_modEq_iff_modEq_mul hcop]
  exact ⟨pow_modEq_self_of_prime p a _ hp hk ((Nat.dvd_lcm_left _ _).trans hdvd),
    pow_modEq_self_of_prime q a _ hq hk ((Nat.dvd_lcm_right _ _).trans hdvd)⟩

/-- One letter through encryption then decryption, on exact modular exponentiation. -/
theorem letter_roundtrip (p q e d : Nat) (c : Int) (hp : p.Prime) (hq : q.Prime)
    (hpq : p ≠ q) (hed : e * d ≡ 1 [MOD Nat.lcm (p - 1) (q - 1)])
    (hn : p * q ≤ 2 ^ 31) (h0 : 0 ≤ c) (hc : c < ((p * q : Nat) : Int)) :
    0 ≤ wrapRune (c ^ e % ((p * q : Nat) : Int)) ∧
    wrapRune ((wrapRune (c ^ e % ((p * q : Nat) : Int))) ^ d % ((p * q : Nat) : Int)) = c := by
  lift c to Nat using h0
  have hc2 : c < p * q := by exact_mod_cast hc
  have hnpos : 0 < p * q := by omega
  have e1 : ((c : Int) ^ e % ((p * q : Nat) : Int)) = ((c ^ e % (p * q) : Nat) : Int) := by
    push_cast; rfl
  have hlt1 : c ^ e % (p * q) < p * q := Nat.mod_lt _ hnpos
  have w1 : wrapRune ((c ^ e % (p * q) : Nat) : Int) = ((c ^ e % (p * q) : Nat) : Int) := by
    apply wrapRune_of_fits <;> omega
  rw [e1, w1]
  have e2 : (((c ^ e % (p * q) : Nat) : Int) ^ d % ((p * q : Nat) : Int))
      = (((c ^ e % (p * q)) ^ d % (p * q) : Nat) : Int) := by
    push_cast; rfl
  have key : (c ^ e % (p * q)) ^ d % (p * q) = c := by
    rw [← Nat.pow_mod, ← pow_mul]
    have := pow_mul_modEq_self p q e d c hp hq hpq hed
    unfold Nat.ModEq at this
    rw [this, Nat.mod_eq_of_lt hc2]
  rw [e2, key]
  refine ⟨by omega, ?_⟩
  apply wrapRune_of_fits <;> omega

/-- A valid Unicode scalar value goes through `rune(x)` and `string(...)` unchanged. -/
theorem runeToCodePoint_wrapRune_of_scalar (v : Int)
    (hv : (0 ≤ v ∧ v < 0xD800) ∨ (0xE000 ≤ v ∧ v ≤ 0x10FFFF)) :
    runeToCodePoint (wrapRune v) = v := by
  have hw : wrapRune v = v := by
    apply wrapRune_of_fits <;> omega
  rw [hw, runeToCodePoint, if_pos hv]

/-- The loop of `Encrypt` when the primitive succeeds, with value `f c`, on every letter. -/
theorem encryptLoop_of_forall (modExp : Int → Int → Int → Option Int) (e n : Int)
    (f : Int → Int) (msg acc : List Int) (h : ∀ c ∈ msg, modExp c n e = some (f c)) :
    encryptLoop modExp e n msg acc = (acc ++ msg.map (fun c => wrapRune (f c)), none) := by
  induction msg generalizing acc with
  | nil => simp [encryptLoop]
  | cons c rest ih =>
    have hc := h c (List.mem_cons_self c rest)
    have hrest : ∀ x ∈ rest, modExp x n e = some (f x) :=
      fun x hx => h x (List.mem_cons_of_mem c hx)
    simp [encryptLoop, hc, ih _ hrest]

/-- The loop of `Encrypt` when the primitive fails on some letter. -/
theorem encryptLoop_of_exists (modExp : Int → Int → Int → Option Int) (e n : Int)
    (msg acc : List Int) (h : ∃ c ∈ msg, modExp c n e = none) :
    encryptLoop modExp e n msg acc = ([], some .ErrorFailedToEncrypt) := by
  induction msg generalizing acc with
  | nil => simp at h
  | cons c rest ih =>
    cases hc : modExp c n e with
    | none => simp [encryptLoop, hc]
    | some v =>
      have hrest : ∃ x ∈ rest, modExp x n e = none := by
        obtain ⟨x, hx, hxn⟩ := h
        rcases List.mem_cons.1 hx with rfl | hx2
        · rw [hc] at hxn; cases hxn
        · exact ⟨x, hx2, hxn⟩
      simp [encryptLoop, hc, ih _ hrest]

/-- The loop of `Decrypt` when the primitive succeeds, with value `f c`, on every element. -/
theorem decryptLoop_of_forall (modExp : Int → Int → Int → Option Int) (d n : Int)
    (f : Int → Int) (enc acc : List Int) (h : ∀ c ∈ enc, modExp c n d = some (f c)) :
    decryptLoop modExp d n enc acc
      = (runesToString (acc ++ enc.map (fun c => wrapRune (f c))), none) := by
  induction enc generalizing acc with
  | nil => simp [decryptLoop]
  | cons c rest ih =>
    have hc := h c (List.mem_cons_self c rest)
    have hrest : ∀ x ∈ rest, modExp x n d = some (f x) :=
      fun x hx => h x (List.mem_cons_of_mem c hx)
    simp [decryptLoop, hc, ih _ hrest]

/-- The loop of `Decrypt` when the primitive fails on some element. -/
theorem decryptLoop_of_exists (modExp : Int → Int → Int → Option Int) (d n : Int)
    (enc acc : List Int) (h : ∃ c ∈ enc, modExp c n d = none) :
    decryptLoop modExp d n enc acc = ([], some .ErrorFailedToDecrypt) := by
  induction enc generalizing acc with
  | nil => simp at h
  | cons c rest ih =>
    cases hc : modExp c n d with
    | none => simp [decryptLoop, hc]
    | some v =>
      have hrest : ∃ x ∈ rest, modExp x n d = none := by
        obtain ⟨x, hx, hxn⟩ := h
        rcases List.mem_cons.1 hx with rfl | hx2
        · rw [hc] at hxn; cases hxn
        · exact ⟨x, hx2, hxn⟩
      simp [decryptLoop, hc, ih _ hrest]

/-- When the primitive fails on no element, it succeeds on each with its `getD` value. -/
theorem modExp_getD_of_no_failure (modExp : Int → Int → Int → Option Int) (x n : Int)
    (xs : List Int) (h : ¬ ∃ c ∈ xs, modExp c n x = none) :
    ∀ c ∈ xs, modExp c n x = some ((modExp c n x).getD 0) := by
  intro c hc
  cases hv : modExp c n x with
  | none => exact absurd ⟨c, hc, hv⟩ h
  | some v => rfl

/-- The model of the primitive is exact on a positive modulus and a natural exponent. -/
theorem Exponentiation_exact (b : Int) (n x : Nat) (hn : 0 < n) :
    Exponentiation b (n : Int) (x : Int) = some (b ^ x % (n : Int)) := by
  have h : ¬ ((n : Int) ≤ 0 ∨ (x : Int) < 0) := by omega
  rw [Exponentiation, if_neg h]
  simp

/-! ## Claims on `kmp.go` -/

/-- C1 (the code departs from it): for pattern "ab" and text "ababab" with the table built
by `table`, `Kmp` returns the empty list whatever the fuel, while the greedy
non-overlapping scan finds the offsets 0, 2, 4. -/
theorem Kmp_ab_in_ababab_returns_nothing :
    (∀ fuel, Kmp fuel [97, 98] [97, 98, 97, 98, 97, 98] (table [97, 98]) = .returned []) ∧
    greedyMatches [97, 98] [97, 98, 97, 98, 97, 98] = [0, 2, 4] := by
  refine ⟨fun fuel => ?_, by decide⟩
  simp [Kmp]

/-- C2 (the code departs from it): for pattern "ab", `table` gives `[-1, 1]`, so its entry
at `j = 1` is 1, while the largest `k < 1` with `p[0:k] = p[1-k:1]` is 0. -/
theorem table_ab_entry_is_not_longest_border :
    table [97, 98] = [-1, 1] ∧ longestBorder [97, 98] 1 = 0 := by
  constructor
  · decide
  · decide

/-- C3 (the code departs from it): for pattern "abc" the entry of `table` at `j = 2` is 2,
which is not below `j`. -/
theorem table_abc_entry_not_below_index :
    ∃ v, index (table [97, 98, 99]) 2 = some v ∧ ¬ (0 ≤ v ∧ v < 2) :=
  ⟨2, by decide, by decide⟩

/-- C4: for every non-empty pattern `p`, the entry of `table p` at position 0 is `-1`. -/
theorem table_zero (p : List Nat) (_hp : p ≠ []) : index (table p) 0 = some (-1) := by
  simp [table_eq, index]

theorem table_zero_witness : [97, 98, 97] ≠ [] ∧ index (table [97, 98, 97]) 0 = some (-1) :=
  ⟨by decide, table_zero [97, 98, 97] (by decide)⟩

/-- C5 (the code departs from it): pattern "b" does not occur in text "a", yet `Kmp`, run
with the table built by `table`, never returns: its loop uses up any amount of fuel. -/
theorem Kmp_b_in_a_never_returns :
    occursIn [98] [97] = false ∧ ∀ fuel, Kmp fuel [98] [97] (table [98]) = .outOfFuel := by
  refine ⟨by decide, fun fuel => ?_⟩
  have h := kmpLoop_stuck [98] [97] (table [98]) { i := 0, j := 0, found := [] }
    (by decide) (by decide) fuel
  simpa [Kmp] using h

/-- C6 (the code departs from it): for pattern "ba", longer than text "a", `Kmp` does not
return at once: with no fuel it is still in its loop, and it never returns. -/
theorem Kmp_ba_in_a_enters_loop :
    [97].length < [98, 97].length ∧
    ∀ fuel, Kmp fuel [98, 97] [97] (table [98, 97]) = .outOfFuel := by
  refine ⟨by decide, fun fuel => ?_⟩
  have h := kmpLoop_stuck [98, 97] [97] (table [98, 97]) { i := 0, j := 0, found := [] }
    (by decide) (by decide) fuel
  simpa [Kmp] using h

/-! ## Claims on `rsa.go` -/

/-- C7 (as stated it fails): with the RSA key `n = 15 = 3 * 5`, `e = d = 3` (and
`3 * 3 ≡ 1` modulo `lcm 2 4 = 4`) and the exact primitive, the one-letter message "A"
(code point 65, not below `n`) is encrypted to 5 and decrypted to 5: the text that comes
back is not the message. -/
theorem roundtrip_fails_on_letter_above_modulus :
    Nat.Prime 3 ∧ Nat.Prime 5 ∧ 3 * 3 ≡ 1 [MOD Nat.lcm (3 - 1) (5 - 1)] ∧
    Encrypt Exponentiation [65] 3 15 = ([5], none) ∧
    Decrypt Exponentiation [5] 3 15 = ([5], none) ∧
    runesToString [65] ≠ [5] := by
  refine ⟨by norm_num, by norm_num, by decide, by decide, by decide, by decide⟩

/-- Why the amended C7 bounds the modulus by `2^31`: with the RSA key
`n = 39937 * 79873 = 3189888001 > 2^31`, `e = 215`, `d = 743` and the exact primitive, the
letter 3 (below `n`) has the ciphertext `3^215 mod n = 2937889019`, which does not fit a
rune: `Encrypt` returns `-1357078277`, and `Decrypt` of that does not give back the
message. -/
theorem roundtrip_fails_on_modulus_above_rune_range :
    Nat.Prime 39937 ∧ Nat.Prime 79873 ∧
    215 * 743 ≡ 1 [MOD Nat.lcm (39937 - 1) (79873 - 1)] ∧
    Exponentiation 3 3189888001 215 = some 2937889019 ∧
    Encrypt Exponentiation [3] 215 3189888001 = ([-1357078277], none) ∧
    Decrypt Exponentiation [-1357078277] 743 3189888001 = ([65533], none) ∧
    runesToString [3] ≠ [65533] := by
  have h215 : Int.toNat 215 = 215 := rfl
  have h743 : Int.toNat 743 = 743 := rfl
  refine ⟨by norm_num, by norm_num, by decide, ?_, ?_, ?_, by decide⟩
  · norm_num [Exponentiation, h215]
  · norm_num [Encrypt, encryptLoop, Exponentiation, wrapRune, h215]
  · norm_num [Decrypt, decryptLoop, Exponentiation, wrapRune, runesToString,
      runeToCodePoint, h743]

/-- C7 (amended): let `n = p * q ≤ 2^31` for distinct primes `p`, `q`, let
`e * d ≡ 1` modulo `lcm (p-1) (q-1)`, and let the primitive compute
`base^exponent mod n` exactly on non-negative bases. Then for every message whose code
points all lie in `[0, n)`, `Encrypt` succeeds with some `c`, and `Decrypt` of `c`
succeeds with the text of the message. -/
theorem Decrypt_Encrypt_roundtrip (modExp : Int → Int → Int → Option Int)
    (p q e d : Nat) (m : List Int)
    (hp : p.Prime) (hq : q.Prime) (hpq : p ≠ q)
    (hed : e * d ≡ 1 [MOD Nat.lcm (p - 1) (q - 1)])
    (hn : p * q ≤ 2 ^ 31)
    (hexact : ∀ (b : Int) (x : Nat), 0 ≤ b →
      modExp b ((p * q : Nat) : Int) (x : Int) = some (b ^ x % ((p * q : Nat) : Int)))
    (hm : ∀ c ∈ m, 0 ≤ c ∧ c < ((p * q : Nat) : Int)) :
    ∃ c, Encrypt modExp m (e : Int) ((p * q : Nat) : Int) = (c, none) ∧
      Decrypt modExp c (d : Int) ((p * q : Nat) : Int) = (runesToString m, none) := by
  refine ⟨m.map (fun c => wrapRune (c ^ e % ((p * q : Nat) : Int))), ?_, ?_⟩
  · have h := encryptLoop_of_forall modExp (e : Int) ((p * q : Nat) : Int)
      (fun c => c ^ e % ((p * q : Nat) : Int)) m [] (fun c hc => hexact c e (hm c hc).1)
    simpa [Encrypt] using h
  · have hall : ∀ x ∈ m.map (fun c => wrapRune (c ^ e % ((p * q : Nat) : Int))),
        modExp x ((p * q : Nat) : Int) (d : Int) = some (x ^ d % ((p * q : Nat) : Int)) := by
      intro x hx
      obtain ⟨c, hc, rfl⟩ := List.mem_map.1 hx
      exact hexact _ d (letter_roundtrip p q e d c hp hq hpq hed hn (hm c hc).1 (hm c hc).2).1
    have h := decryptLoop_of_forall modExp (d : Int) ((p * q : Nat) : Int)
      (fun x => x ^ d % ((p * q : Nat) : Int)) _ [] hall
    have hback : (m.map (fun c => wrapRune (c ^ e % ((p * q : Nat) : Int)))).map
        (fun x => wrapRune (x ^ d % ((p * q : Nat) : Int))) = m := by
      rw [List.map_map]
      conv_rhs => rw [← List.map_id m]
      apply List.map_congr_left
      intro c hc
      exact (letter_roundtrip p q e d c hp hq hpq hed hn (hm c hc).1 (hm c hc).2).2
    rw [Decrypt, h, List.nil_append, hback]

theorem Decrypt_Encrypt_roundtrip_witness :
    ∃ c, Encrypt Exponentiation [7, 2] ((3 : Nat) : Int) ((3 * 5 : Nat) : Int) = (c, none) ∧
      Decrypt Exponentiation c ((3 : Nat) : Int) ((3 * 5 : Nat) : Int)
        = (runesToString [7, 2], none) :=
  Decrypt_Encrypt_roundtrip Exponentiation 3 5 3 3 [7, 2] (by norm_num) (by norm_num)
    (by decide) (by decide) (by norm_num)
    (fun b x _ => Exponentiation_exact b (3 * 5) x (by norm_num))
    (by decide)

/-- C8 (as stated it fails): with the exact primitive, modulus `2^32` and exponent 31, the
letter 2 gives `ModExp = 2^31 = 2147483648`, but the element that `Encrypt` returns is
`-2147483648`: the value does not fit a rune. -/
theorem Encrypt_element_differs_from_modExp :
    Exponentiation 2 4294967296 31 = some 2147483648 ∧
    Encrypt Exponentiation [2] 31 4294967296 = ([-2147483648], none) := by
  constructor
  · decide
  · decide

/-- C8 (amended): when the primitive succeeds on every character of the message,
`Encrypt` returns no error and an output of the length of the message whose `k`-th
element is `rune(ModExp(message[k], modulus, exponent))`, the value of the primitive on
that character alone, reduced to 32 bits; this is the value itself whenever it lies in
`[-2^31, 2^31)`. -/
theorem Encrypt_elementwise (modExp : Int → Int → Int → Option Int) (message : List Int)
    (publicExponent modulus : Int)
    (hok : ¬ ∃ c ∈ message, modExp c modulus publicExponent = none) :
    (Encrypt modExp message publicExponent modulus).2 = none ∧
    (Encrypt modExp message publicExponent modulus).1.length = message.length ∧
    ∀ (k : Nat) (c : Int), message[k]? = some c →
      ∃ v, modExp c modulus publicExponent = some v ∧
        (Encrypt modExp message publicExponent modulus).1[k]? = some (wrapRune v) ∧
        (-2 ^ 31 ≤ v → v < 2 ^ 31 → wrapRune v = v) := by
  have hf := modExp_getD_of_no_failure modExp publicExponent modulus message hok
  have h := encryptLoop_of_forall modExp publicExponent modulus
    (fun c => (modExp c modulus publicExponent).getD 0) message [] hf
  have hE : Encrypt modExp message publicExponent modulus
      = (message.map (fun c => wrapRune ((modExp c modulus publicExponent).getD 0)), none) := by
    simpa [Encrypt] using h
  rw [hE]
  refine ⟨rfl, by simp, ?_⟩
  intro k c hk
  refine ⟨(modExp c modulus publicExponent).getD 0, ?_, ?_, wrapRune_of_fits _⟩
  · exact hf c (List.getElem?_mem hk)
  · simp [List.getElem?_map, hk]

theorem Encrypt_elementwise_witness :
    (Encrypt Exponentiation [7, 2] 3 15).2 = none ∧
    (Encrypt Exponentiation [7, 2] 3 15).1.length = [7, 2].length ∧
    ∀ (k : Nat) (c : Int), [7, 2][k]? = some c →
      ∃ v, Exponentiation c 15 3 = some v ∧
        (Encrypt Exponentiation [7, 2] 3 15).1[k]? = some (wrapRune v) ∧
        (-2 ^ 31 ≤ v → v < 2 ^ 31 → wrapRune v = v) :=
  Encrypt_elementwise Exponentiation [7, 2] 3 15 (by decide)

/-- C9: `Encrypt` returns the error `ErrorFailedToEncrypt` exactly when the primitive
fails for at least one character of the message; in that case the returned sequence is
nil, and otherwise the error is nil. -/
theorem Encrypt_error_iff (modExp : Int → Int → Int → Option Int) (message : List Int)
    (publicExponent modulus : Int) :
    ((Encrypt modExp message publicExponent modulus).2 = some .ErrorFailedToEncrypt ↔
      ∃ c ∈ message, modExp c modulus publicExponent = none) ∧
    ((∃ c ∈ message, modExp c modulus publicExponent = none) →
      (Encrypt modExp message publicExponent modulus).1 = []) ∧
    ((¬ ∃ c ∈ message, modExp c modulus publicExponent = none) →
      (Encrypt modExp message publicExponent modulus).2 = none) := by
  have hfail : (∃ c ∈ message, modExp c modulus publicExponent = none) →
      Encrypt modExp message publicExponent modulus = ([], some .ErrorFailedToEncrypt) :=
    fun h => encryptLoop_of_exists modExp publicExponent modulus message [] h
  have hsucc : (¬ ∃ c ∈ message, modExp c modulus publicExponent = none) →
      (Encrypt modExp message publicExponent modulus).2 = none := by
    intro h
    have hf := modExp_getD_of_no_failure modExp publicExponent modulus message h
    have h2 := encryptLoop_of_forall modExp publicExponent modulus
      (fun c => (modExp c modulus publicExponent).getD 0) message [] hf
    rw [Encrypt, h2]
  refine ⟨⟨fun h => ?_, fun h => by rw [hfail h]⟩, fun h => by rw [hfail h], hsucc⟩
  by_contra hno
  rw [hsucc hno] at h
  cases h

/-- C10 (as stated it fails): with the exact primitive, modulus `0x10000` and exponent 1,
the element `0xD800` gives `ModExp = 0xD800 = 55296`, a surrogate, and the text that
`Decrypt` returns has the code point `U+FFFD = 65533` there. -/
theorem Decrypt_code_point_differs_from_modExp :
    Exponentiation 55296 65536 1 = some 55296 ∧
    Decrypt Exponentiation [55296] 1 65536 = ([65533], none) := by
  constructor
  · decide
  · decide

/-- C10 (amended): `Decrypt` returns the error `ErrorFailedToDecrypt` together with the
empty text exactly when the primitive fails for at least one element; otherwise it returns
no error and a text with one code point per element, the `k`-th being
`rune(ModExp(encrypted[k], modulus, privateExponent))` as converted by `string`: the value
of the primitive itself when that is a Unicode scalar value, `U+FFFD` when the rune is
not one. -/
theorem Decrypt_result (modExp : Int → Int → Int → Option Int) (encrypted : List Int)
    (privateExponent modulus : Int) :
    (Decrypt modExp encrypted privateExponent modulus = ([], some .ErrorFailedToDecrypt) ↔
      ∃ c ∈ encrypted, modExp c modulus privateExponent = none) ∧
    ((¬ ∃ c ∈ encrypted, modExp c modulus privateExponent = none) →
      (Decrypt modExp encrypted privateExponent modulus).2 = none ∧
      (Decrypt modExp encrypted privateExponent modulus).1.length = encrypted.length ∧
      ∀ (k : Nat) (c : Int), encrypted[k]? = some c →
        ∃ v, modExp c modulus privateExponent = some v ∧
          (Decrypt modExp encrypted privateExponent modulus).1[k]?
            = some (runeToCodePoint (wrapRune v)) ∧
          ((0 ≤ v ∧ v < 0xD800) ∨ (0xE000 ≤ v ∧ v ≤ 0x10FFFF) →
            runeToCodePoint (wrapRune v) = v)) := by
  have hfail : (∃ c ∈ encrypted, modExp c modulus privateExponent = none) →
      Decrypt modExp encrypted privateExponent modulus = ([], some .ErrorFailedToDecrypt) :=
    fun h => decryptLoop_of_exists modExp privateExponent modulus encrypted [] h
  have hsucc : (¬ ∃ c ∈ encrypted, modExp c modulus privateExponent = none) →
      Decrypt modExp encrypted privateExponent modulus
        = (runesToString (encrypted.map
            (fun c => wrapRune ((modExp c modulus privateExponent).getD 0))), none) := by
    intro h
    have hf := modExp_getD_of_no_failure modExp privateExponent modulus encrypted h
    have h2 := decryptLoop_of_forall modExp privateExponent modulus
      (fun c => (modExp c modulus privateExponent).getD 0) encrypted [] hf
    simpa [Decrypt] using h2
  refine ⟨⟨fun h => ?_, hfail⟩, fun hno => ?_⟩
  · by_contra hno
    rw [hsucc hno] at h
    have h2 := congrArg Prod.snd h
    cases h2
  · have hf := modExp_getD_of_no_failure modExp privateExponent modulus encrypted hno
    rw [hsucc hno]
    refine ⟨rfl, by simp [runesToString], ?_⟩
    intro k c hk
    refine ⟨(modExp c modulus privateExponent).getD 0, hf c (List.getElem?_mem hk), ?_,
      runeToCodePoint_wrapRune_of_scalar _⟩
    simp [runesToString, List.getElem?_map, hk]

/-! ## Auxiliary facts on the scan loop -/

/-- No wrap-around on a value in the range of an `int`. -/
theorem wrapInt_of_fits (x : Int) (h1 : -2 ^ 63 ≤ x) (h2 : x < 2 ^ 63) : wrapInt x = x := by
  unfold wrapInt
  omega

/-- Indexing with a natural number in range. -/
theorem index_natCast {α : Type} (xs : List α) (k : Nat) : index xs (k : Int) = xs[k]? := by
  simp [index]

/-- A successful indexing has its index in range. -/
theorem index_some_range {α : Type} (xs : List α) (i : Int) (a : α)
    (h : index xs i = some a) : 0 ≤ i ∧ i < (xs.length : Int) := by
  unfold index at h
  by_cases h0 : 0 ≤ i
  · rw [if_pos h0] at h
    have hlt : i.toNat < xs.length := by
      by_contra hge
      rw [List.getElem?_eq_none (by omega)] at h
      cases h
    omega
  · rw [if_neg h0] at h
    cases h

/-- The outer loop of `table` appends the loop indices to `t`. -/
theorem tableBody_foldl_ofNat (w : List Nat) (js : List Nat) (s : List Int × Nat) :
    (js.foldl (tableBody w) s).1 = s.1 ++ js.map Int.ofNat := by
  induction js generalizing s with
  | nil => simp
  | cons j js ih => simp [List.foldl_cons, ih, tableBody]

/-- Entries of `table w`: the sentinel at 0, the index itself elsewhere. -/
theorem index_table (w : List Nat) (k : Nat) (hk : k < w.length) :
    index (table w) (k : Int) = some (if k = 0 then -1 else (k : Int)) := by
  have ht : table w = -1 :: (List.range' 1 (w.length - 1)).map Int.ofNat := by
    simp [table, tableBody_foldl_ofNat]
  rw [index_natCast, ht]
  cases k with
  | zero => simp
  | succ m =>
    have hm : m < w.length - 1 := by omega
    rw [List.getElem?_cons_succ, List.getElem?_map, List.getElem?_range' _ _ hm]
    simp only [Option.map_some', Nat.succ_ne_zero, if_false]
    congr 1
    simp only [Int.ofNat_eq_coe]
    congr 1
    omega

/-- Length of `table w`: one entry for the sentinel and one per later position. -/
theorem length_table_closed (w : List Nat) : (table w).length = 1 + (w.length - 1) := by
  simp [table, tableBody_foldl_ofNat]
  omega

/-- One loop body on `table word`, from cursors in range with the loop condition true:
there is no panic, the cursors stay in range and no match is recorded. -/
theorem kmpBody_table_step (word text : List Nat) (s : KmpState)
    (hlen : text.length ≤ word.length) (hsmall : text.length < 2 ^ 62)
    (hinv : CursorsInRange text s) (hc : kmpCond text s = true) :
    ∃ s1, kmpBody word text (table word) s = some s1 ∧ CursorsInRange text s1 ∧
      s1.found = s.found := by
  obtain ⟨i, j, f⟩ := s
  obtain ⟨hi0, hj0, hi1, hj1⟩ := hinv
  simp only at hi0 hj0 hi1 hj1
  lift i to Nat using hi0
  lift j to Nat using hj0
  have hsum : (i : Int) + (j : Int) < (text.length : Int) := by
    have h := of_decide_eq_true hc
    simp only at h
    rwa [wrapInt_of_fits _ (by omega) (by omega)] at h
  have hj : j < word.length := by omega
  have hi : i < text.length := by omega
  have hiw : i < word.length := by omega
  have hwa : index word (j : Int) = some (word[j]) := by
    rw [index_natCast, List.getElem?_eq_getElem hj]
  have htb : index text (i : Int) = some (text[i]) := by
    rw [index_natCast, List.getElem?_eq_getElem hi]
  simp only [kmpBody, hwa, htb]
  by_cases hab : word[j] = text[i]
  · have hne : ¬ ((i : Int) = (word.length : Int)) := by omega
    rw [if_pos hab, if_neg hne]
    refine ⟨_, rfl, ?_, rfl⟩
    simp only [CursorsInRange]
    rw [wrapInt_of_fits _ (by omega) (by omega)]
    omega
  · rw [if_neg hab, index_table word i hiw, index_table word j hj]
    simp only
    by_cases hj0 : j = 0
    · subst hj0
      simp only [if_true]
      refine ⟨_, rfl, ?_, rfl⟩
      simp only [CursorsInRange]
      omega
    · have hpos : ((j : Int) > -1) := by omega
      simp only [if_neg hj0, if_pos hpos]
      refine ⟨_, rfl, ?_, rfl⟩
      simp only [CursorsInRange]
      by_cases hi0 : i = 0
      · subst hi0
        simp only [if_true]
        rw [wrapInt_of_fits _ (by omega) (by omega)]
        omega
      · simp only [if_neg hi0]
        rw [wrapInt_of_fits _ (by omega) (by omega)]
        omega

/-- On `table word` every state at the head of the loop has its cursors in range. -/
theorem kmpStateAfter_inRange (word text : List Nat)
    (hlen : text.length ≤ word.length) (hsmall : text.length < 2 ^ 62)
    (n : Nat) (s : KmpState) (hs : kmpStateAfter word text (table word) n = some s) :
    CursorsInRange text s := by
  induction n generalizing s with
  | zero =>
    simp only [kmpStateAfter, Option.some.injEq] at hs
    subst hs
    simp [CursorsInRange]
  | succ m ih =>
    simp only [kmpStateAfter] at hs
    cases hprev : kmpStateAfter word text (table word) m with
    | none => rw [hprev] at hs; cases hs
    | some s0 =>
      rw [hprev] at hs
      simp only at hs
      by_cases hc : kmpCond text s0 = true
      · rw [if_pos hc] at hs
        obtain ⟨s1, hb, hinv1, _⟩ := kmpBody_table_step word text s0 hlen hsmall (ih s0 hprev) hc
        rw [hb] at hs
        cases hs
        exact hinv1
      · rw [if_neg hc] at hs
        cases hs

/-- A loop body that does not panic records no match when the text is not longer than the
word: the test `i == len(word)` is reached only with `i < len(text)`. -/
theorem kmpBody_found (word text : List Nat) (patternTable : List Int) (s s1 : KmpState)
    (hlen : text.length ≤ word.length)
    (hb : kmpBody word text patternTable s = some s1) : s1.found = s.found := by
  unfold kmpBody at hb
  split at hb
  · rename_i a b hwa htb
    have hr := index_some_range text s.i b htb
    split at hb
    · have hne : ¬ (s.i = (word.length : Int)) := by omega
      simp only [if_neg hne, Option.some.injEq] at hb
      rw [← hb]
    · split at hb
      · cases hb
      · split at hb
        · cases hb
        · split at hb
          · simp only [Option.some.injEq] at hb
            rw [← hb]
          · simp only [Option.some.injEq] at hb
            rw [← hb]
  · cases hb

/-- What the loop returns, when it returns, is the match list it started from. -/
theorem kmpLoop_returned_found (word text : List Nat) (patternTable : List Int)
    (hlen : text.length ≤ word.length) (fuel : Nat) (s : KmpState) (m : List Int)
    (h : kmpLoop word text patternTable fuel s = .returned m) : m = s.found := by
  induction fuel generalizing s with
  | zero =>
    unfold kmpLoop at h
    split at h
    · cases h
    · cases h; rfl
  | succ n ih =>
    unfold kmpLoop at h
    split at h
    · cases hb : kmpBody word text patternTable s with
      | none => rw [hb] at h; cases h
      | some s1 =>
        rw [hb] at h
        rw [ih s1 h, kmpBody_found word text patternTable s s1 hlen hb]
    · cases h; rfl

/-! ## Further claims on `kmp.go` -/

/-- C11 (as stated it fails): for pattern "b", text "a" and the empty table, `Kmp` panics:
the first mismatch reads `patternTable[0]`, which is out of range. -/
theorem Kmp_panics_on_empty_table : Kmp 1 [98] [97] [] = .panicked := by
  decide

/-- Why the amended C11 bounds each entry by its index: for pattern "b", text "a" and the
table `[5]`, the first mismatch sets `i = -5` and `j = 5`, and `word[5]` is out of range. -/
theorem Kmp_panics_on_entry_above_index : Kmp 2 [98] [97] [5] = .panicked := by
  decide

/-- Why the amended C11 bounds each entry from below: for pattern "ab", text "ab" and the
table `[-2^63, 1]`, the mismatch at `i = 0, j = 1` computes `i = 0 + 1 + 2^63`, which wraps
around to `-2^63 + 1`, and `text[i]` is out of range. -/
theorem Kmp_panics_on_overflowing_entry :
    Kmp 3 [97, 98] [97, 98] [-9223372036854775808, 1] = .panicked := by
  decide

/-- One loop body on a table with an entry for every pattern position, each entry `k` at
most `k` and not so negative that the cursors overflow: from non-negative cursors whose
sum fits an `int`, with the loop condition true, there is no panic and the cursors stay
so. -/
theorem kmpBody_step_of_bounded_table (word text : List Nat) (patternTable : List Int)
    (s : KmpState) (hlen : text.length ≤ word.length)
    (hT : word.length ≤ patternTable.length)
    (hent : ∀ (k : Nat) (v : Int), k < word.length → patternTable[k]? = some v →
      v ≤ (k : Int) ∧ 2 * (text.length : Int) - v ≤ 2 ^ 63)
    (hinv : 0 ≤ s.i ∧ 0 ≤ s.j ∧ s.i + s.j < 2 ^ 63) (hc : kmpCond text s = true) :
    ∃ s1, kmpBody word text patternTable s = some s1 ∧
      (0 ≤ s1.i ∧ 0 ≤ s1.j ∧ s1.i + s1.j < 2 ^ 63) := by
  obtain ⟨i, j, f⟩ := s
  obtain ⟨hi0, hj0, hfit⟩ := hinv
  simp only at hi0 hj0 hfit
  lift i to Nat using hi0
  lift j to Nat using hj0
  have hsum : (i : Int) + (j : Int) < (text.length : Int) := by
    have h := of_decide_eq_true hc
    simp only at h
    rwa [wrapInt_of_fits _ (by omega) (by omega)] at h
  have hj : j < word.length := by omega
  have hi : i < text.length := by omega
  have hiw : i < word.length := by omega
  have hiT : i < patternTable.length := by omega
  have hjT : j < patternTable.length := by omega
  have h0T : 0 < patternTable.length := by omega
  have he0 := hent 0 _ (by omega) (List.getElem?_eq_getElem h0T)
  have hei := hent i _ hiw (List.getElem?_eq_getElem hiT)
  have hej := hent j _ hj (List.getElem?_eq_getElem hjT)
  have hwa : index word (j : Int) = some (word[j]) := by
    rw [index_natCast, List.getElem?_eq_getElem hj]
  have htb : index text (i : Int) = some (text[i]) := by
    rw [index_natCast, List.getElem?_eq_getElem hi]
  have hti : index patternTable (i : Int) = some (patternTable[i]) := by
    rw [index_natCast, List.getElem?_eq_getElem hiT]
  have htj : index patternTable (j : Int) = some (patternTable[j]) := by
    rw [index_natCast, List.getElem?_eq_getElem hjT]
  simp only [kmpBody, hwa, htb]
  by_cases hab : word[j] = text[i]
  · have hne : ¬ ((i : Int) = (word.length : Int)) := by omega
    rw [if_pos hab, if_neg hne]
    refine ⟨_, rfl, ?_⟩
    simp only
    rw [wrapInt_of_fits _ (by omega) (by omega)]
    omega
  · rw [if_neg hab, hti, htj]
    simp only
    by_cases hpos : patternTable[j] > -1
    · rw [if_pos hpos]
      refine ⟨_, rfl, ?_⟩
      simp only
      rw [wrapInt_of_fits _ (by omega) (by omega)]
      omega
    · rw [if_neg hpos]
      refine ⟨_, rfl, ?_⟩
      simp only
      omega

/-- On such a table the loop never panics from non-negative cursors whose sum fits. -/
theorem kmpLoop_no_panic_of_bounded_table (word text : List Nat) (patternTable : List Int)
    (hlen : text.length ≤ word.length) (hT : word.length ≤ patternTable.length)
    (hent : ∀ (k : Nat) (v : Int), k < word.length → patternTable[k]? = some v →
      v ≤ (k : Int) ∧ 2 * (text.length : Int) - v ≤ 2 ^ 63)
    (fuel : Nat) (s : KmpState) (hinv : 0 ≤ s.i ∧ 0 ≤ s.j ∧ s.i + s.j < 2 ^ 63) :
    kmpLoop word text patternTable fuel s ≠ .panicked := by
  induction fuel generalizing s with
  | zero =>
    unfold kmpLoop
    split <;> simp
  | succ n ih =>
    unfold kmpLoop
    by_cases hc : kmpCond text s = true
    · obtain ⟨s1, hb, hinv1⟩ :=
        kmpBody_step_of_bounded_table word text patternTable s hlen hT hent hinv hc
      simp only [hc, if_true, hb]
      exact ih s1 hinv1
    · simp [hc]

/-- C11 (amended): for every pattern, text and table such that the table has an entry for
every pattern position and each such entry `patternTable[k]` is at most `k` and not so
negative that the cursor arithmetic overflows (`2 * len(text) - patternTable[k] ≤ 2^63`,
which every entry `≥ -1` meets when `len(text) < 2^62`), `Kmp` does not panic, whatever
the fuel: no access to `word`, `text` or `patternTable` is out of range. -/
theorem Kmp_no_panic_of_bounded_table (fuel : Nat) (word text : List Nat)
    (patternTable : List Int) (hT : word.length ≤ patternTable.length)
    (hent : ∀ (k : Nat) (v : Int), k < word.length → patternTable[k]? = some v →
      v ≤ (k : Int) ∧ 2 * (text.length : Int) - v ≤ 2 ^ 63) :
    Kmp fuel word text patternTable ≠ .panicked := by
  unfold Kmp
  by_cases h : word.length < text.length
  · simp [h]
  · rw [if_neg h]
    exact kmpLoop_no_panic_of_bounded_table word text patternTable (by omega) hT hent fuel _
      (by simp)

theorem Kmp_no_panic_of_bounded_table_witness :
    Kmp 3 [97, 98] [97, 98] [-1, 0] = .returned [] ∧
    Kmp 3 [97, 98] [97, 98] [-1, 0] ≠ .panicked :=
  ⟨by decide,
    Kmp_no_panic_of_bounded_table 3 [97, 98] [97, 98] [-1, 0] (by decide)
      (by
        intro k v hk h
        have hk2 : k < 2 := hk
        interval_cases k <;> simp at h <;> subst h <;> decide)⟩

/-- C12 (the code departs from it): for pattern "ab" and text "ba" with the table built by
`table`, the scan loop never ends: it uses up any amount of fuel. -/
theorem Kmp_ab_in_ba_never_returns :
    ∀ fuel, Kmp fuel [97, 98] [98, 97] (table [97, 98]) = .outOfFuel := by
  intro fuel
  have h := kmpLoop_stuck [97, 98] [98, 97] (table [97, 98]) { i := 0, j := 0, found := [] }
    (by decide) (by decide) fuel
  simpa [Kmp] using h

/-- C13: for every non-empty pattern `p`, `table p` has exactly `len(p)` entries. -/
theorem table_length (p : List Nat) (hp : p ≠ []) : (table p).length = p.length := by
  have hpos : 0 < p.length := List.length_pos.2 hp
  rw [length_table_closed]
  omega

theorem table_length_witness :
    [97, 98, 97] ≠ [] ∧ (table [97, 98, 97]).length = [97, 98, 97].length :=
  ⟨by decide, table_length [97, 98, 97] (by decide)⟩

/-- C14 (the code departs from it): for pattern "a" and text "a", the loop body at
`i = 0, j = 0` finds `word[j] == text[i]` and `j+1 == len(word)`, yet appends nothing
(its test is `i == len(word)`), and `Kmp` returns the empty list. -/
theorem Kmp_full_match_not_recorded :
    kmpBody [97] [97] (table [97]) { i := 0, j := 0, found := [] }
      = some { i := 0, j := 1, found := [] } ∧
    ∀ fuel, Kmp (fuel + 1) [97] [97] (table [97]) = .returned [] := by
  refine ⟨by decide, fun fuel => ?_⟩
  cases fuel <;> simp [Kmp, kmpLoop, kmpCond, kmpBody, index, wrapInt]

/-- C15 (the code departs from it): on a mismatch with `patternTable[j] = -1` the body
resets the text cursor `i` to 0 and leaves the pattern cursor `j` as it is. For "b" in "a"
with `table` at `i = 0, j = 0` the state stays `i = 0, j = 0` (not `i = 1`); for "ab" in
"ab" with the table `[0, -1]` at `i = 0, j = 1` it stays `i = 0, j = 1` (not `i = 1,
j = 0`). -/
theorem kmpBody_mismatch_resets_text_cursor :
    kmpBody [98] [97] (table [98]) { i := 0, j := 0, found := [] }
      = some { i := 0, j := 0, found := [] } ∧
    kmpBody [97, 98] [97, 98] [0, -1] { i := 0, j := 1, found := [] }
      = some { i := 0, j := 1, found := [] } := by
  constructor
  · decide
  · decide

/-- C16: for every word, text and table, whenever `Kmp` returns a result, that result is
the empty list. -/
theorem Kmp_returned_is_empty (fuel : Nat) (word text : List Nat) (patternTable : List Int)
    (m : List Int) (h : Kmp fuel word text patternTable = .returned m) : m = [] := by
  unfold Kmp at h
  by_cases hg : word.length < text.length
  · rw [if_pos hg] at h
    cases h
    rfl
  · rw [if_neg hg] at h
    exact kmpLoop_returned_found word text patternTable (by omega) fuel _ m h

theorem Kmp_returned_is_empty_witness :
    Kmp 5 [97, 98] [97, 98] (table [97, 98]) = .returned [] ∧ ([] : List Int) = [] :=
  ⟨by decide, Kmp_returned_is_empty 5 [97, 98] [97, 98] (table [97, 98]) [] (by decide)⟩

/-- C17: for every string `w` and every `j` with `1 ≤ j < len(w)`, the entry of `table w`
at `j` is `j`; and any string `w2` of the same length has the same table. -/
theorem table_entry_eq_index (w w2 : List Nat) (j : Nat) (h1 : 1 ≤ j) (h2 : j < w.length)
    (hlen : w2.length = w.length) :
    index (table w) (j : Int) = some (j : Int) ∧ table w2 = table w := by
  constructor
  · rw [index_table w j h2, if_neg (by omega)]
  · simp [table, tableBody_foldl_ofNat, hlen]

theorem table_entry_eq_index_witness :
    index (table [97, 98, 99]) ((2 : Nat) : Int) = some ((2 : Nat) : Int) ∧
      table [120, 121, 122] = table [97, 98, 99] :=
  table_entry_eq_index [97, 98, 99] [120, 121, 122] 2 (by decide) (by decide) (by decide)

/-- C18: for every word, text and table with `len(word) < len(text)`, `Kmp` returns the
empty list at once: with any fuel, also with none. -/
theorem Kmp_shorter_word_returns_at_once (word text : List Nat) (patternTable : List Int)
    (h : word.length < text.length) (fuel : Nat) :
    Kmp fuel word text patternTable = .returned [] := by
  simp [Kmp, h]

theorem Kmp_shorter_word_returns_at_once_witness :
    Kmp 0 [97, 98] [97, 98, 97, 98] [] = .returned [] :=
  Kmp_shorter_word_returns_at_once [97, 98] [97, 98, 97, 98] [] (by decide) 0

/-- C19: run `Kmp` with the table built by `table word`, on a call that passes the guard
(`len(text) ≤ len(word)`) and a text shorter than `2^62` bytes. At every loop iteration,
that is at every state `s` reached after some number of loop bodies on which the loop
condition holds, `0 ≤ j < len(word)`, `0 ≤ i < len(text)`, `i` and `j` are below the
length of the table, `i + j < len(text) ≤ len(word) = len(table)`, and the four accesses
`word[j]`, `text[i]`, `patternTable[i]`, `patternTable[j]` succeed. -/
theorem Kmp_table_indices_in_range (word text : List Nat) (n : Nat) (s : KmpState)
    (hlen : text.length ≤ word.length) (hsmall : text.length < 2 ^ 62)
    (hs : kmpStateAfter word text (table word) n = some s)
    (hc : kmpCond text s = true) :
    (0 ≤ s.j ∧ s.j < (word.length : Int)) ∧ (0 ≤ s.i ∧ s.i < (text.length : Int)) ∧
    (s.i < ((table word).length : Int) ∧ s.j < ((table word).length : Int)) ∧
    (s.i + s.j < (text.length : Int) ∧ text.length ≤ word.length ∧
      word.length = (table word).length) ∧
    (index word s.j).isSome ∧ (index text s.i).isSome ∧
    (index (table word) s.i).isSome ∧ (index (table word) s.j).isSome := by
  have hinv := kmpStateAfter_inRange word text hlen hsmall n s hs
  obtain ⟨i, j, f⟩ := s
  obtain ⟨hi0, hj0, hi1, hj1⟩ := hinv
  simp only at hi0 hj0 hi1 hj1
  lift i to Nat using hi0
  lift j to Nat using hj0
  have hsum : (i : Int) + (j : Int) < (text.length : Int) := by
    have h := of_decide_eq_true hc
    simp only at h
    rwa [wrapInt_of_fits _ (by omega) (by omega)] at h
  have hj : j < word.length := by omega
  have hi : i < text.length := by omega
  have hiw : i < word.length := by omega
  have htl : (table word).length = word.length := by
    rw [length_table_closed]
    omega
  simp only [index_table word i hiw, index_table word j hj, index_natCast,
    List.getElem?_eq_getElem hj, List.getElem?_eq_getElem hi, Option.isSome_some, htl]
  exact ⟨by omega, by omega, by omega, ⟨by omega, hlen, trivial⟩, trivial, trivial, trivial,
    trivial⟩

theorem Kmp_table_indices_in_range_witness :
    kmpStateAfter [97, 98, 97] [97, 97, 98] (table [97, 98, 97]) 1
      = some { i := 0, j := 1, found := [] } ∧
    (index [97, 98, 97] 1).isSome ∧ (index [97, 97, 98] 0).isSome ∧
    (index (table [97, 98, 97]) 0).isSome ∧ (index (table [97, 98, 97]) 1).isSome :=
  ⟨by decide,
    (Kmp_table_indices_in_range [97, 98, 97] [97, 97, 98] 1 { i := 0, j := 1, found := [] }
      (by decide) (by decide) (by decide) (by decide)).2.2.2.2⟩

/-! ## Further claims on `rsa.go` -/

/-- C20: for every sequence `x`, exponent `k`, modulus `n` and primitive, `Encrypt`
fails exactly when `Decrypt` fails, and when both succeed the text returned by `Decrypt`
is the string formed from the code points returned by `Encrypt`. -/
theorem Decrypt_eq_string_of_Encrypt (modExp : Int → Int → Int → Option Int)
    (x : List Int) (k n : Int) :
    ((Encrypt modExp x k n).2 ≠ none ↔ (Decrypt modExp x k n).2 ≠ none) ∧
    ((Encrypt modExp x k n).2 = none → (Decrypt modExp x k n).2 = none →
      (Decrypt modExp x k n).1 = runesToString (Encrypt modExp x k n).1) := by
  by_cases hex : ∃ c ∈ x, modExp c n k = none
  · have hE : Encrypt modExp x k n = ([], some .ErrorFailedToEncrypt) :=
      encryptLoop_of_exists modExp k n x [] hex
    have hD : Decrypt modExp x k n = ([], some .ErrorFailedToDecrypt) :=
      decryptLoop_of_exists modExp k n x [] hex
    rw [hE, hD]
    simp
  · have hf := modExp_getD_of_no_failure modExp k n x hex
    have hE : Encrypt modExp x k n
        = ([] ++ x.map (fun c => wrapRune ((modExp c n k).getD 0)), none) :=
      encryptLoop_of_forall modExp k n (fun c => (modExp c n k).getD 0) x [] hf
    have hD : Decrypt modExp x k n
        = (runesToString ([] ++ x.map (fun c => wrapRune ((modExp c n k).getD 0))), none) :=
      decryptLoop_of_forall modExp k n (fun c => (modExp c n k).getD 0) x [] hf
    rw [hE, hD]
    simp

end Geomina
